import Mathlib

/-!
Verification of the ranking fine-tuning script
`src/rank_code/deepspeed_rank_choice_v11_noe.py`.

Pure fragments of the script (metric computation, option-pool construction,
prompt rendering, batch padding, sequence-index arithmetic, prediction
post-processing and checkpoint filtering) are translated into executable Lean
definitions.  Python floats are modelled by `ℚ`, Python lists by `List`,
`random.shuffle` by an arbitrary permuting function passed as a parameter,
and a failing `assert` by an `Option`-valued result.
-/

namespace RankChoice

/-- Loop body of `apk` (lines 228 to 233): walks the truncated prediction
list with running index `i`, accumulating `score` and `num_hits` (in Python
the hit counter is incremented before the score update, hence `hits + 1` in
both places).  `orig` is the already truncated prediction list used for the
`p not in predicted[:i]` test. -/
def apkGo (actual orig : List ℕ) : List ℕ → ℕ → ℚ → ℚ → ℚ
  | [], _, score, _ => score
  | p :: rest, i, score, hits =>
    if p ∈ actual ∧ p ∉ orig.take i then
      apkGo actual orig rest (i + 1) (score + (hits + 1) / ((i : ℚ) + 1)) (hits + 1)
    else
      apkGo actual orig rest (i + 1) score hits

/-- Python `apk(actual, predicted, k)` (lines 197 to 235).  Floats are
modelled by `ℚ`; the conditional truncation `predicted = predicted[:k]` is
`List.take k`, a no-op when the list is already short enough. -/
def apk (actual predicted : List ℕ) (k : ℕ) : ℚ :=
  if actual = [] then 0
  else apkGo actual (predicted.take k) (predicted.take k) 0 0 0 /
    ((min actual.length k : ℕ) : ℚ)

/-- Python `mapk(actual, predicted, k)` (lines 238 to 262):
`np.mean([apk(a, p, k) for a, p in zip(actual, predicted)])`, with `np.mean`
modelled as sum divided by length. -/
def mapk (actual predicted : List (List ℕ)) (k : ℕ) : ℚ :=
  let scores := (actual.zip predicted).map (fun ap => apk ap.1 ap.2 k)
  scores.sum / (scores.length : ℚ)

/-- Arithmetic mean of a list of rationals, written from the specification
wording (the arithmetic mean over the zipped pairs); to be compared with
`mapk`. -/
def arithMean (l : List ℚ) : ℚ := l.sum / (l.length : ℚ)

/-- Option-pool construction of `create_example` (lines 289 to 301).  The two
`random.shuffle` calls are modelled by the function parameters `s1` and `s2`;
theorems assume that they permute their input.  In the source `num = 25`,
`num - 1 = 24`. -/
def buildInputTexts (isTest : Bool) (s1 s2 : List String → List String)
    (orRecallTexts : List String) (answer : String) : List String :=
  let recallTextsOr := orRecallTexts.take 50
  if isTest = false then
    let recallTexts := recallTextsOr.filter (fun t => t != answer)
    let shuffled := s1 recallTexts
    let inputTexts := shuffled.take 24 ++ [answer]
    s2 inputTexts
  else
    recallTextsOr.take 25

/-- Python `string.ascii_lowercase`. -/
def ascii_lowercase : String := "abcdefghijklmnopqrstuvwxyz"

/-- Python `str.upper`, character by character (ASCII inputs only). -/
def upperStr (s : String) : String := String.mk (s.toList.map Char.toUpper)

/-- Python `str.lower`, character by character (ASCII inputs only). -/
def lowerStr (s : String) : String := String.mk (s.toList.map Char.toLower)

/-- Line 304:
`label_name = string.ascii_lowercase.upper() + string.ascii_lowercase.upper().lower()`. -/
def label_name : String := upperStr ascii_lowercase ++ lowerStr (upperStr ascii_lowercase)

/-- Python `label_name[idx]` as a one-character string.  In the script `idx`
is always below 25, hence in range; the fallback character is never reached
(Python would raise `IndexError` out of range). -/
def label_char (idx : ℕ) : String := String.singleton (label_name.toList.getD idx 'A')

/-- Text appended for one option: the f-string
`f"{label_name[idx]}.{text}\n"` of line 308 (the brace pairs delimit the two
interpolated values `label_name[idx]` and `text`). -/
def option_line (idx : ℕ) (t : String) : String := label_char idx ++ "." ++ t ++ "\n"

/-- Loop of lines 305 to 308: updates `label` on a match with `answer` and
appends one option line per text. -/
def renderGo (answer : String) : List String → ℕ → ℕ × String → ℕ × String
  | [], _, acc => acc
  | t :: rest, idx, acc =>
    renderGo answer rest (idx + 1)
      ((if t = answer then idx else acc.1), acc.2 ++ option_line idx t)

/-- Lines 302 to 308: `label = 999`, the initial `label_str`, then the
rendering loop. -/
def renderLoop (answer : String) (texts : List String) : ℕ × String :=
  renderGo answer texts 0 (999, "\nCandidate distractor Analyses:")

/-- Fixed instruction terminating the prompt (line 311). -/
def answer_tail : String := "###Answer###:The option with the correct distractor Analyse is"

/-- Rendered prompt of line 311: `data['prompt'] + label_str + "###Answer###:..."`. -/
def renderedText (prompt answer : String) (texts : List String) : String :=
  prompt ++ (renderLoop answer texts).2 ++ answer_tail

/-- Description of the rendered option block following the specification
wording: one line per option, the option at position `idx` labelled with
letter number `idx`; to be compared with the accumulating loop of the
source. -/
def specOptionLines : ℕ → List String → String
  | _, [] => ""
  | idx, t :: rest => option_line idx t ++ specOptionLines (idx + 1) rest

/-- Lines 289 to 311 of `create_example`: option-pool construction, rendering
loop, the `assert label != 999` data-integrity check (a failing assert is
modelled as `none`) and the rendered text.  The remaining lines (eos
replacement and tokenisation) depend on the external tokenizer and are
outside this embedding; the returned triple is (option list, label, rendered
text). -/
def create_example (isTest : Bool) (s1 s2 : List String → List String)
    (prompt answer : String) (orRecallTexts : List String) :
    Option (List String × ℕ × String) :=
  let inputTexts := buildInputTexts isTest s1 s2 orRecallTexts answer
  let res := renderLoop answer inputTexts
  if isTest = false ∧ res.1 = 999 then none
  else some (inputTexts, res.1, prompt ++ res.2 ++ answer_tail)

/-- Tokenised instance as produced by `__getitem__`: token ids, integer label
and numeric identifier. -/
structure TokInstance where
  inputIds : List ℕ
  label : ℕ
  dataId : ℕ
deriving DecidableEq, Repr

/-- Python `max(map(len, inputs))` (line 333); Python raises on an empty
batch, so the collation theorems assume a non-empty instance list. -/
def maxLenOf (ls : List (List ℕ)) : ℕ := (ls.map List.length).foldl Nat.max 0

/-- One padded row (lines 334 to 337): a row of `max_len` copies of `val`
whose first `len(inputs[i])` entries are overwritten with the sequence. -/
def padRow (maxLen val : ℕ) (row : List ℕ) : List ℕ :=
  row ++ (List.replicate maxLen val).drop row.length

/-- Python `padding(inputs, val)` inside `collate_fn` (lines 331 to 338). -/
def padding (val : ℕ) (inputs : List (List ℕ)) : List (List ℕ) :=
  inputs.map (padRow (maxLenOf inputs) val)

/-- Python `collate_fn` (lines 327 to 348): pads the token sequences with the
tokenizer eos id and stacks labels and data ids unchanged. -/
def collate_fn (eosId : ℕ) (instances : List TokInstance) :
    List (List ℕ) × List ℕ × List ℕ :=
  (padding eosId (instances.map (fun inst => inst.inputIds)),
   instances.map (fun inst => inst.label),
   instances.map (fun inst => inst.dataId))

/-- Loop underlying `torch.argmax` on a row of naturals: keeps the index of
the first maximal element seen so far (`torch.argmax` returns the first
occurrence of the maximum). -/
def argmaxGo : List ℕ → ℕ → ℕ → ℕ → ℕ
  | [], _, best, _ => best
  | v :: rest, i, best, bestVal =>
    if bestVal < v then argmaxGo rest (i + 1) i v
    else argmaxGo rest (i + 1) best bestVal

/-- Index of the first maximal element of a row (0 on the empty row),
modelling `torch.argmax(..., -1)` for one row. -/
def argmaxFirst : List ℕ → ℕ
  | [] => 0
  | v :: rest => argmaxGo rest 1 0 v

/-- One row of `torch.eq(input_ids, pad_token_id).int()` (lines 543 and
657). -/
def padIndicator (padId : ℕ) (row : List ℕ) : List ℕ :=
  row.map (fun t => if t = padId then 1 else 0)

/-- Lines 657 to 658 of the training loop, for one row:
`sequence_lengths = torch.eq(input_ids, pad_id).int().argmax(-1) - 1`
followed by `sequence_lengths % input_ids.shape[-1]`.  The subtraction is on
signed integers and torch `%` is the sign-of-divisor remainder, which is
`Int.emod`. -/
def trainSequenceIndex (padId : ℕ) (row : List ℕ) : ℤ :=
  ((argmaxFirst (padIndicator padId row) : ℤ) - 1) % (row.length : ℤ)

/-- Lines 543 to 544 of `evaluation_dist`: textually the same computation as
in the training loop. -/
def evalSequenceIndex (padId : ℕ) (row : List ℕ) : ℤ :=
  ((argmaxFirst (padIndicator padId row) : ℤ) - 1) % (row.length : ℤ)

/-- Per-example prediction record gathered in `evaluation_dist`: identifier,
the 25 per-option logits (floats modelled by `ℚ`) and the integer label. -/
structure PredRow where
  dataId : ℕ
  scores : List ℚ
  label : ℕ
deriving DecidableEq, Repr

/-- Python `np.argsort(-predicts, axis=1)` for one row (line 575): the option
indices ordered by descending score.  NumPy uses an unstable quicksort, so
the order of tied scores is unspecified; the theorems about the ranking
therefore assume pairwise-distinct scores, under which every correct sort
agrees. -/
def argsortDesc (scores : List ℚ) : List ℕ :=
  List.insertionSort (fun i j => scores.getD j 0 ≤ scores.getD i 0)
    (List.range scores.length)

/-- Python `df.drop_duplicates('data_id')` (line 582) on rows
`(data_id, predict, label)`: keeps the first occurrence of every
identifier. -/
def dedupFirst : List (ℕ × List ℕ × ℕ) → List (ℕ × List ℕ × ℕ)
  | [] => []
  | r :: rest => r :: dedupFirst (rest.filter (fun r2 => r2.1 != r.1))
termination_by l => l.length
decreasing_by
  simp only [List.length_cons]
  exact Nat.lt_succ_of_le (List.length_filter_le _ _)

/-- Rows of the data frame built on line 578, with predictions already
replaced by their descending argsort (line 575). -/
def rankRows (rows : List PredRow) : List (ℕ × List ℕ × ℕ) :=
  rows.map (fun r => (r.dataId, argsortDesc r.scores, r.label))

/-- Post-gather tail of `evaluation_dist` (lines 571 to 588): rank the
options of every record, deduplicate by identifier, score with `mapk` at 25
against the singleton label lists, and return the negated score. -/
def evaluation_dist (rows : List PredRow) : ℚ :=
  let df := dedupFirst (rankRows rows)
  let loss := mapk (df.map (fun r => [r.2.2])) (df.map (fun r => r.2.1)) 25;
  -loss

/-- Python substring test `pat in s` on strings. -/
def containsSub (pat s : String) : Bool :=
  (List.range (s.toList.length + 1)).any (fun i => pat.toList.isPrefixOf (s.toList.drop i))

/-- Filter of lines 751 to 754: keep exactly the state-dict entries whose
name contains `"lora"` or `"score"` (weights are modelled by numeric
ids). -/
def save_filter (stateDict : List (String × ℕ)) : List (String × ℕ) :=
  stateDict.filter (fun kv => containsSub "lora" kv.1 || containsSub "score" kv.1)

/-- Description of the files written by `save_model` (lines 735 to 757) on
the weight-writing rank: target directory, tokenizer directory, weights file
name and the saved dictionary. -/
structure SaveResult where
  dir : String
  tokenizerDir : String
  weightsFile : String
  savedDict : List (String × ℕ)
deriving DecidableEq, Repr

/-- Python `save_model` (lines 735 to 757) for the rank that writes weights
(`global_rank == 0`): returns `none` when `sub_fold is None` (nothing is
written), otherwise the description of the writes: the tokenizer goes to
`os.path.join(output_dir, sub_fold)` and the filtered state dict to
`adapter.bin` in the same directory. -/
def save_model (outputDir : String) (subFold : Option String)
    (stateDict : List (String × ℕ)) : Option SaveResult :=
  match subFold with
  | none => none
  | some s =>
    let dir := outputDir ++ "/" ++ s
    some { dir := dir, tokenizerDir := dir,
           weightsFile := dir ++ "/" ++ "adapter.bin",
           savedDict := save_filter stateDict }

/-! Theorems.  First the average-precision metric. -/

theorem apkGo_of_not_mem (x : ℕ) (orig : List ℕ) :
    ∀ (rest : List ℕ) (i : ℕ) (score hits : ℚ), x ∉ rest →
      apkGo [x] orig rest i score hits = score := by
  intro rest
  induction rest with
  | nil => intro i score hits _; rfl
  | cons t r ih =>
    intro i score hits hx
    have ht : ¬(t ∈ [x] ∧ t ∉ orig.take i) := by
      rintro ⟨h1, -⟩
      apply hx
      rw [← List.mem_singleton.mp h1]
      exact List.mem_cons_self t r
    simp only [apkGo, if_neg ht]
    exact ih (i + 1) score hits (fun hm => hx (List.mem_cons_of_mem t hm))

theorem apkGo_walk (x : ℕ) (orig v : List ℕ) :
    ∀ (u : List ℕ) (i : ℕ) (score hits : ℚ), x ∉ u → x ∉ orig.take (i + u.length) →
      apkGo [x] orig (u ++ x :: v) i score hits =
        apkGo [x] orig v (i + u.length + 1)
          (score + (hits + 1) / ((i : ℚ) + (u.length : ℚ) + 1)) (hits + 1) := by
  intro u
  induction u with
  | nil =>
    intro i score hits _ htake
    have hc : x ∈ [x] ∧ x ∉ orig.take i :=
      ⟨List.mem_singleton_self x, by simpa using htake⟩
    simp only [List.nil_append, apkGo, if_pos hc, List.length_nil]
    norm_num
  | cons t u ih =>
    intro i score hits hu htake
    have ht : ¬(t ∈ [x] ∧ t ∉ orig.take i) := by
      rintro ⟨h1, -⟩
      apply hu
      rw [← List.mem_singleton.mp h1]
      exact List.mem_cons_self t u
    simp only [List.cons_append, apkGo, if_neg ht]
    have hu2 : x ∉ u := fun hm => hu (List.mem_cons_of_mem t hm)
    have htake2 : x ∉ orig.take ((i + 1) + u.length) := by
      have he : (i + 1) + u.length = i + (t :: u).length := by
        simp only [List.length_cons]; omega
      rw [he]; exact htake
    have e1 : (i + 1) + u.length + 1 = i + (t :: u).length + 1 := by
      simp only [List.length_cons]; omega
    have e2 : (((i + 1 : ℕ)) : ℚ) + (u.length : ℚ) + 1
        = (i : ℚ) + (((t :: u).length : ℕ) : ℚ) + 1 := by
      push_cast [List.length_cons]; ring
    rw [← e1, ← e2]
    exact ih (i + 1) score hits hu2 htake2

theorem apk_single_decomp (x : ℕ) (u v : List ℕ) (k : ℕ) (hk : u.length < k)
    (hu : x ∉ u) (hv : x ∉ v) :
    apk [x] (u ++ x :: v) k = 1 / ((u.length : ℚ) + 1) := by
  have hne : ([x] : List ℕ) ≠ [] := by simp
  have hsplit : (u ++ x :: v).take k = u ++ x :: v.take (k - u.length - 1) := by
    rw [List.take_append_eq_append_take, List.take_of_length_le (le_of_lt hk)]
    congr 1
    obtain ⟨m, hm⟩ : ∃ m, k - u.length = m + 1 := ⟨k - u.length - 1, by omega⟩
    rw [hm, List.take_succ_cons]
    simp
  have htake0 : x ∉ (u ++ x :: v.take (k - u.length - 1)).take (0 + u.length) := by
    rw [Nat.zero_add, List.take_left]
    exact hu
  have hv2 : x ∉ v.take (k - u.length - 1) := fun hm => hv (List.mem_of_mem_take hm)
  simp only [apk]
  rw [if_neg hne, hsplit, apkGo_walk x _ _ u 0 0 0 hu htake0,
    apkGo_of_not_mem x _ _ _ _ _ hv2]
  have hmin : min ([x] : List ℕ).length k = 1 := by
    simp only [List.length_singleton]
    omega
  rw [hmin]
  norm_num

/-- C1: `mapk` is the arithmetic mean of `apk` over the zipped ranking pairs,
and for a single relevant item `apk` matches the closed form of mean average
precision: `1 / (r + 1)` when the item sits at 0-based position `r < k` of
the duplicate-free prediction list, and `0` when the item is absent from the
first `k` predictions. -/
theorem mapk_apk_closed_form :
    (∀ (actual predicted : List (List ℕ)) (k : ℕ),
       mapk actual predicted k
         = arithMean ((actual.zip predicted).map (fun ap => apk ap.1 ap.2 k)))
    ∧ (∀ (x : ℕ) (p : List ℕ) (k r : ℕ) (hr : r < p.length),
         p.Nodup → p.get ⟨r, hr⟩ = x → r < k →
         apk [x] p k = 1 / ((r : ℚ) + 1))
    ∧ (∀ (x : ℕ) (p : List ℕ) (k : ℕ), 0 < k → x ∉ p.take k → apk [x] p k = 0) := by
  refine ⟨fun actual predicted k => rfl, ?_, ?_⟩
  · intro x p k r hr hnd hget hk
    have hget2 : p[r] = x := by simpa using hget
    have hdecomp : p = p.take r ++ x :: p.drop (r + 1) := by
      conv_lhs => rw [← List.take_append_drop r p]
      rw [List.drop_eq_getElem_cons hr, hget2]
    have hlen : (p.take r).length = r := by
      rw [List.length_take]; omega
    have hnd2 := hnd
    rw [hdecomp, List.nodup_append] at hnd2
    obtain ⟨-, hcons, hdisj⟩ := hnd2
    have hxv : x ∉ p.drop (r + 1) := (List.nodup_cons.mp hcons).1
    have hxu : x ∉ p.take r := fun hmem => hdisj hmem (List.mem_cons_self x _)
    have hmain := apk_single_decomp x (p.take r) (p.drop (r + 1)) k
      (by rw [hlen]; exact hk) hxu hxv
    rw [hdecomp, hmain, hlen]
  · intro x p k _ hx
    have hne : ([x] : List ℕ) ≠ [] := by simp
    simp only [apk]
    rw [if_neg hne, apkGo_of_not_mem x _ _ 0 0 0 hx]
    simp

/-- C1 witness: the statement evaluated at concrete rankings. -/
theorem mapk_apk_closed_form_check :
    mapk [[2]] [[1, 2, 3]] 25
        = arithMean (([[2]].zip [[1, 2, 3]]).map (fun ap => apk ap.1 ap.2 25))
    ∧ apk [2] [1, 2, 3] 25 = 1 / (((1 : ℕ) : ℚ) + 1)
    ∧ apk [7] [1, 2, 3] 25 = 0 := by
  refine ⟨mapk_apk_closed_form.1 [[2]] [[1, 2, 3]] 25, ?_, ?_⟩
  · exact mapk_apk_closed_form.2.1 2 [1, 2, 3] 25 1 (by decide) (by decide)
      (by decide) (by decide)
  · exact mapk_apk_closed_form.2.2 7 [1, 2, 3] 25 (by decide) (by decide)

/-! Helper facts about strings and the rendering loop. -/

theorem string_append_empty (s : String) : s ++ "" = s := by
  cases s with
  | mk d => apply String.ext; simp [String.data_append]

theorem string_append_assoc (a b c : String) : a ++ b ++ c = a ++ (b ++ c) := by
  apply String.ext
  simp [String.data_append, List.append_assoc]

theorem getD_mem_of_lt {α : Type} (l : List α) (d : α) {n : ℕ} (h : n < l.length) :
    l.getD n d ∈ l := by
  rw [List.getD_eq_getElem l d h]
  exact List.getElem_mem h

theorem renderGo_snd (answer : String) :
    ∀ (ts : List String) (idx : ℕ) (acc : ℕ × String),
      (renderGo answer ts idx acc).2 = acc.2 ++ specOptionLines idx ts := by
  intro ts
  induction ts with
  | nil => intro idx acc; simp [renderGo, specOptionLines, string_append_empty]
  | cons t r ih =>
    intro idx acc
    simp only [renderGo, specOptionLines]
    rw [ih (idx + 1) _, string_append_assoc]

theorem renderGo_fst_of_not_mem (answer : String) :
    ∀ (ts : List String) (idx : ℕ) (acc : ℕ × String), answer ∉ ts →
      (renderGo answer ts idx acc).1 = acc.1 := by
  intro ts
  induction ts with
  | nil => intro idx acc _; rfl
  | cons t r ih =>
    intro idx acc hx
    have ht : ¬ t = answer := by
      intro he
      apply hx
      rw [← he]
      exact List.mem_cons_self t r
    simp only [renderGo, if_neg ht]
    exact ih (idx + 1) _ (fun hm => hx (List.mem_cons_of_mem t hm))

theorem renderGo_fst_of_mem (answer : String) :
    ∀ (ts : List String) (idx : ℕ) (acc : ℕ × String), answer ∈ ts →
      ∃ j, j < ts.length ∧ ts.getD j "" = answer
        ∧ (∀ j2, j < j2 → j2 < ts.length → ts.getD j2 "" ≠ answer)
        ∧ (renderGo answer ts idx acc).1 = idx + j := by
  intro ts
  induction ts with
  | nil => intro idx acc h; exact absurd h (List.not_mem_nil answer)
  | cons t r ih =>
    intro idx acc hmem
    by_cases hr : answer ∈ r
    · obtain ⟨j, hj1, hj2, hj3, hj4⟩ :=
        ih (idx + 1) ((if t = answer then idx else acc.1), acc.2 ++ option_line idx t) hr
      refine ⟨j + 1, ?_, by simpa using hj2, ?_, ?_⟩
      · simp only [List.length_cons]; omega
      · intro j2 hgt hlt
        obtain ⟨j3, rfl⟩ : ∃ j3, j2 = j3 + 1 := ⟨j2 - 1, by omega⟩
        have hlt2 : j3 < r.length := by
          simp only [List.length_cons] at hlt; omega
        have := hj3 j3 (by omega) hlt2
        simpa using this
      · simp only [renderGo]
        rw [hj4]
        omega
    · have ht : t = answer := by
        rcases List.mem_cons.mp hmem with he | he
        · exact he.symm
        · exact absurd he hr
      refine ⟨0, by simp only [List.length_cons]; omega, by simpa using ht, ?_, ?_⟩
      · intro j2 hgt hlt
        obtain ⟨j3, rfl⟩ : ∃ j3, j2 = j3 + 1 := ⟨j2 - 1, by omega⟩
        have hlt2 : j3 < r.length := by
          simp only [List.length_cons] at hlt; omega
        intro he
        apply hr
        have : r.getD j3 "" ∈ r := getD_mem_of_lt r "" hlt2
        rw [List.getD_cons_succ] at he
        rw [← he]
        exact this
      · simp only [renderGo, if_pos ht]
        rw [renderGo_fst_of_not_mem answer r (idx + 1) _ hr]
        omega

theorem renderLoop_fst_of_not_mem (answer : String) (ts : List String)
    (h : answer ∉ ts) : (renderLoop answer ts).1 = 999 :=
  renderGo_fst_of_not_mem answer ts 0 (999, "\nCandidate distractor Analyses:") h

theorem renderLoop_fst_spec_of_mem (answer : String) (ts : List String)
    (h : answer ∈ ts) :
    ∃ j, j < ts.length ∧ ts.getD j "" = answer
      ∧ (∀ j2, j < j2 → j2 < ts.length → ts.getD j2 "" ≠ answer)
      ∧ (renderLoop answer ts).1 = j := by
  obtain ⟨j, h1, h2, h3, h4⟩ :=
    renderGo_fst_of_mem answer ts 0 (999, "\nCandidate distractor Analyses:") h
  exact ⟨j, h1, h2, h3, by simpa [renderLoop] using h4⟩

theorem renderLoop_snd (answer : String) (ts : List String) :
    (renderLoop answer ts).2
      = "\nCandidate distractor Analyses:" ++ specOptionLines 0 ts :=
  renderGo_snd answer ts 0 (999, "\nCandidate distractor Analyses:")

/-! Helper facts about the option-pool construction. -/

theorem buildInputTexts_test (s1 s2 : List String → List String)
    (rts : List String) (answer : String) :
    buildInputTexts true s1 s2 rts answer = (rts.take 50).take 25 := rfl

theorem buildInputTexts_train_perm (s1 s2 : List String → List String)
    (hs2 : ∀ l, (s2 l).Perm l) (rts : List String) (answer : String) :
    (buildInputTexts false s1 s2 rts answer).Perm
      ((s1 ((rts.take 50).filter (fun t => t != answer))).take 24 ++ [answer]) :=
  hs2 _

theorem buildInputTexts_train_length (s1 s2 : List String → List String)
    (hs1 : ∀ l, (s1 l).Perm l) (hs2 : ∀ l, (s2 l).Perm l)
    (rts : List String) (answer : String) :
    (buildInputTexts false s1 s2 rts answer).length
      = min 24 ((rts.take 50).filter (fun t => t != answer)).length + 1 := by
  rw [(buildInputTexts_train_perm s1 s2 hs2 rts answer).length_eq,
    List.length_append, List.length_take, (hs1 _).length_eq]
  simp

theorem buildInputTexts_train_length_le (s1 s2 : List String → List String)
    (hs2 : ∀ l, (s2 l).Perm l) (rts : List String) (answer : String) :
    (buildInputTexts false s1 s2 rts answer).length ≤ 25 := by
  rw [(buildInputTexts_train_perm s1 s2 hs2 rts answer).length_eq,
    List.length_append, List.length_take]
  have := Nat.min_le_left 24
    ((s1 ((rts.take 50).filter (fun t => t != answer))).length)
  simp only [List.length_singleton]
  omega

theorem buildInputTexts_train_mem (s1 s2 : List String → List String)
    (hs2 : ∀ l, (s2 l).Perm l) (rts : List String) (answer : String) :
    answer ∈ buildInputTexts false s1 s2 rts answer := by
  rw [(buildInputTexts_train_perm s1 s2 hs2 rts answer).mem_iff]
  exact List.mem_append_right _ (List.mem_singleton_self answer)

theorem buildInputTexts_train_count (s1 s2 : List String → List String)
    (hs1 : ∀ l, (s1 l).Perm l) (hs2 : ∀ l, (s2 l).Perm l)
    (rts : List String) (answer : String) :
    (buildInputTexts false s1 s2 rts answer).count answer = 1 := by
  rw [(buildInputTexts_train_perm s1 s2 hs2 rts answer).count_eq,
    List.count_append]
  have h0 : ((s1 ((rts.take 50).filter (fun t => t != answer))).take 24).count answer
      = 0 := by
    rw [List.count_eq_zero]
    intro hmem
    have h1 : answer ∈ s1 ((rts.take 50).filter (fun t => t != answer)) :=
      List.mem_of_mem_take hmem
    have h2 : answer ∈ (rts.take 50).filter (fun t => t != answer) :=
      ((hs1 _).mem_iff).mp h1
    have h3 := (List.mem_filter.mp h2).2
    simp [bne_iff_ne] at h3
  rw [h0]
  simp

/-- C2 counterexample: with identity shuffles (which do permute their input)
and a single-candidate rts list, the training-time option list has 2
entries, not 25, refuting the fixed-size part of the claim. -/
theorem fixed_size_25_cex :
    ¬ (∀ (s1 s2 : List String → List String),
         (∀ l, (s1 l).Perm l) → (∀ l, (s2 l).Perm l) →
         ∀ (rts : List String) (answer : String),
           (buildInputTexts false s1 s2 rts answer).length = 25) := by
  intro h
  exact absurd
    (h (fun l => l) (fun l => l) (fun l => List.Perm.refl l)
      (fun l => List.Perm.refl l) ["a"] "b")
    (by decide)

/-- C2 (amended): in training mode the option list is a permutation of the
first 24 survivors of the shuffled answer-free candidate pool with the
answer appended, so it has `min 24 (number of candidates differing from the
answer) + 1` entries (25 whenever at least 24 such candidates were
retrieved) and contains the true answer exactly once; in test mode it is the
first 25 candidates verbatim. -/
theorem build_input_texts_spec :
    ∀ (s1 s2 : List String → List String),
      (∀ l, (s1 l).Perm l) → (∀ l, (s2 l).Perm l) →
      ∀ (rts : List String) (answer : String),
        (buildInputTexts false s1 s2 rts answer).Perm
            ((s1 ((rts.take 50).filter (fun t => t != answer))).take 24 ++ [answer])
        ∧ (buildInputTexts false s1 s2 rts answer).length
            = min 24 ((rts.take 50).filter (fun t => t != answer)).length + 1
        ∧ (buildInputTexts false s1 s2 rts answer).count answer = 1
        ∧ buildInputTexts true s1 s2 rts answer = (rts.take 50).take 25 := by
  intro s1 s2 hs1 hs2 rts answer
  exact ⟨buildInputTexts_train_perm s1 s2 hs2 rts answer,
    buildInputTexts_train_length s1 s2 hs1 hs2 rts answer,
    buildInputTexts_train_count s1 s2 hs1 hs2 rts answer,
    buildInputTexts_test s1 s2 rts answer⟩

/-- C2 witness: the amended statement at identity shuffles on a concrete
row. -/
theorem build_input_texts_spec_check :
    (buildInputTexts false (fun l => l) (fun l => l) ["x", "y", "z"] "y").Perm
        (((fun (l : List String) => l)
            (((["x", "y", "z"] : List String).take 50).filter (fun t => t != "y"))).take 24
          ++ ["y"])
    ∧ (buildInputTexts false (fun l => l) (fun l => l) ["x", "y", "z"] "y").length
        = min 24 (((["x", "y", "z"] : List String).take 50).filter (fun t => t != "y")).length + 1
    ∧ (buildInputTexts false (fun l => l) (fun l => l) ["x", "y", "z"] "y").count "y" = 1
    ∧ buildInputTexts true (fun l => l) (fun l => l) ["x", "y", "z"] "y"
        = ((["x", "y", "z"] : List String).take 50).take 25 :=
  build_input_texts_spec (fun l => l) (fun l => l)
    (fun l => List.Perm.refl l) (fun l => List.Perm.refl l) ["x", "y", "z"] "y"

/-- C3 counterexample: a test-time row whose answer occurs among the first
25 candidates gets that position as its label, not the sentinel 999. -/
theorem test_label_sentinel_cex :
    (create_example true (fun l => l) (fun l => l) "P" "b" ["a", "b", "c"]).map
        (fun out => out.2.1) = some 1
    ∧ (1 : ℕ) ≠ 999 := by
  refine ⟨by decide, by decide⟩

/-- C3 (amended): for a test-time row `create_example` always yields the
first 25 candidates as options, and its label is the last option position
holding the answer text when the answer occurs among the options, and the
sentinel 999 only when it does not. -/
theorem test_label_spec :
    ∀ (s1 s2 : List String → List String) (prompt answer : String)
      (rts : List String),
      create_example true s1 s2 prompt answer rts
          = some ((rts.take 50).take 25,
                  (renderLoop answer ((rts.take 50).take 25)).1,
                  renderedText prompt answer ((rts.take 50).take 25))
      ∧ (answer ∉ (rts.take 50).take 25 →
           (renderLoop answer ((rts.take 50).take 25)).1 = 999)
      ∧ (answer ∈ (rts.take 50).take 25 →
           ∃ j, j < ((rts.take 50).take 25).length
             ∧ ((rts.take 50).take 25).getD j "" = answer
             ∧ (∀ j2, j < j2 → j2 < ((rts.take 50).take 25).length →
                  ((rts.take 50).take 25).getD j2 "" ≠ answer)
             ∧ (renderLoop answer ((rts.take 50).take 25)).1 = j) := by
  intro s1 s2 prompt answer rts
  refine ⟨rfl, ?_, ?_⟩
  · intro h
    exact renderLoop_fst_of_not_mem answer _ h
  · intro h
    exact renderLoop_fst_spec_of_mem answer _ h

/-- C3 witness: a concrete test-time row without the answer among the
candidates keeps the sentinel label. -/
theorem test_label_spec_check :
    (renderLoop "z" (((["a", "b"] : List String).take 50).take 25)).1 = 999 :=
  (test_label_spec (fun l => l) (fun l => l) "P" "z" ["a", "b"]).2.1 (by decide)

/-- C5: in training mode `create_example` fails the assert (returns `none`)
exactly when no presented option equals the answer text; in test mode no
check is made and an example is always returned. -/
theorem create_example_assert_iff :
    ∀ (s1 s2 : List String → List String),
      (∀ l, (s1 l).Perm l) → (∀ l, (s2 l).Perm l) →
      ∀ (prompt answer : String) (rts : List String),
        (create_example false s1 s2 prompt answer rts = none
           ↔ answer ∉ buildInputTexts false s1 s2 rts answer)
        ∧ (create_example true s1 s2 prompt answer rts).isSome = true := by
  intro s1 s2 hs1 hs2 prompt answer rts
  constructor
  · constructor
    · intro hnone hmem
      obtain ⟨j, h1, h2, h3, h4⟩ := renderLoop_fst_spec_of_mem answer _ hmem
      have hlen := buildInputTexts_train_length_le s1 s2 hs2 rts answer
      have hne2 : (renderLoop answer (buildInputTexts false s1 s2 rts answer)).1 ≠ 999 := by
        rw [h4]
        omega
      simp only [create_example] at hnone
      simp [hne2] at hnone
    · intro hnot
      have h999 := renderLoop_fst_of_not_mem answer _ hnot
      simp [create_example, h999]
  · simp [create_example]

/-- C5 witness: the statement at identity shuffles on a concrete row. -/
theorem create_example_assert_iff_check :
    (create_example false (fun l => l) (fun l => l) "P" "b" ["a"] = none
       ↔ "b" ∉ buildInputTexts false (fun l => l) (fun l => l) ["a"] "b")
    ∧ (create_example true (fun l => l) (fun l => l) "P" "b" ["a"]).isSome = true :=
  create_example_assert_iff (fun l => l) (fun l => l)
    (fun l => List.Perm.refl l) (fun l => List.Perm.refl l) "P" "b" ["a"]

/-- C8: the rendered text is the prompt, then the fixed header, then one
line per option labelling the option at position `idx` with letter number
`idx`, then the fixed closing instruction; the letter sequence is the
uppercase alphabet followed by the lowercase alphabet. -/
theorem rendered_text_spec :
    (∀ (prompt answer : String) (ts : List String),
       renderedText prompt answer ts
         = prompt ++ "\nCandidate distractor Analyses:"
             ++ specOptionLines 0 ts ++ answer_tail)
    ∧ label_name = "ABCDEFGHIJKLMNOPQRSTUVWXYZabcdefghijklmnopqrstuvwxyz" := by
  constructor
  · intro prompt answer ts
    show prompt ++ (renderLoop answer ts).2 ++ answer_tail = _
    rw [renderLoop_snd, ← string_append_assoc]
  · decide

/-- C10: with permuting shuffles the training-time assert is unreachable:
exactly one presented option equals the answer text, so the label is set to
a valid option index and `create_example` always returns an example. -/
theorem assert_unreachable :
    ∀ (s1 s2 : List String → List String),
      (∀ l, (s1 l).Perm l) → (∀ l, (s2 l).Perm l) →
      ∀ (prompt answer : String) (rts : List String),
        (buildInputTexts false s1 s2 rts answer).count answer = 1
        ∧ (create_example false s1 s2 prompt answer rts).isSome = true := by
  intro s1 s2 hs1 hs2 prompt answer rts
  refine ⟨buildInputTexts_train_count s1 s2 hs1 hs2 rts answer, ?_⟩
  have hmem : answer ∈ buildInputTexts false s1 s2 rts answer :=
    buildInputTexts_train_mem s1 s2 hs2 rts answer
  obtain ⟨j, h1, h2, h3, h4⟩ := renderLoop_fst_spec_of_mem answer _ hmem
  have hlen := buildInputTexts_train_length_le s1 s2 hs2 rts answer
  have hne2 : (renderLoop answer (buildInputTexts false s1 s2 rts answer)).1 ≠ 999 := by
    rw [h4]
    omega
  simp [create_example, hne2]

/-- C10 witness: the statement at identity shuffles on a concrete row. -/
theorem assert_unreachable_check :
    (buildInputTexts false (fun l => l) (fun l => l) ["a", "c"] "b").count "b" = 1
    ∧ (create_example false (fun l => l) (fun l => l) "P" "b" ["a", "c"]).isSome = true :=
  assert_unreachable (fun l => l) (fun l => l)
    (fun l => List.Perm.refl l) (fun l => List.Perm.refl l) "P" "b" ["a", "c"]

/-! Helper facts about the evaluation post-processing. -/

theorem dedupFirst_sublist : ∀ l : List (ℕ × List ℕ × ℕ), (dedupFirst l).Sublist l
  | [] => by simp [dedupFirst]
  | r :: rest => by
    rw [dedupFirst]
    exact List.Sublist.cons₂ r
      ((dedupFirst_sublist _).trans (List.filter_sublist _))
termination_by l => l.length
decreasing_by
  simp only [List.length_cons]
  exact Nat.lt_succ_of_le (List.length_filter_le _ _)

theorem mem_dedupFirst {a : ℕ × List ℕ × ℕ} {l : List (ℕ × List ℕ × ℕ)}
    (h : a ∈ dedupFirst l) : a ∈ l :=
  (dedupFirst_sublist l).subset h

theorem dedupFirst_keys_nodup :
    ∀ l : List (ℕ × List ℕ × ℕ), ((dedupFirst l).map (fun r => r.1)).Nodup
  | [] => by simp [dedupFirst]
  | r :: rest => by
    rw [dedupFirst]
    simp only [List.map_cons, List.nodup_cons]
    refine ⟨?_, dedupFirst_keys_nodup _⟩
    intro hmem
    obtain ⟨a, ha, hae⟩ := List.mem_map.mp hmem
    have ha2 : a ∈ rest.filter (fun r2 => r2.1 != r.1) := mem_dedupFirst ha
    have h3 := (List.mem_filter.mp ha2).2
    rw [hae] at h3
    simp at h3
termination_by l => l.length
decreasing_by
  simp only [List.length_cons]
  exact Nat.lt_succ_of_le (List.length_filter_le _ _)

theorem dedupFirst_filter_key :
    ∀ (l : List (ℕ × List ℕ × ℕ)) (key : ℕ),
      (dedupFirst l).filter (fun r => r.1 == key)
        = (l.filter (fun r => r.1 == key)).take 1
  | [], _ => by simp [dedupFirst]
  | r :: rest, key => by
    rw [dedupFirst]
    by_cases hk : r.1 = key
    · have hpos : (r.1 == key) = true := by simp [hk]
      rw [List.filter_cons_of_pos (p := fun r2 : ℕ × List ℕ × ℕ => r2.1 == key) hpos,
        List.filter_cons_of_pos (p := fun r2 : ℕ × List ℕ × ℕ => r2.1 == key) hpos,
        List.take_succ_cons, List.take_zero]
      congr 1
      rw [List.filter_eq_nil_iff]
      intro a ha
      have ha2 : a ∈ rest.filter (fun r2 => r2.1 != r.1) := mem_dedupFirst ha
      have h3 := (List.mem_filter.mp ha2).2
      simp only [bne_iff_ne] at h3
      simp [hk ▸ h3]
    · have hneg : ¬ ((r.1 == key) = true) := by simp [hk]
      rw [List.filter_cons_of_neg (p := fun r2 : ℕ × List ℕ × ℕ => r2.1 == key) hneg,
        List.filter_cons_of_neg (p := fun r2 : ℕ × List ℕ × ℕ => r2.1 == key) hneg,
        dedupFirst_filter_key (rest.filter (fun r2 => r2.1 != r.1)) key]
      congr 1
      rw [List.filter_filter]
      apply List.filter_congr
      intro a _
      by_cases hak : a.1 = key
      · have : (key != r.1) = true := by
          simp only [bne_iff_ne]
          intro he
          exact hk he.symm
        simp [hak, this]
      · simp [hak]
termination_by l _ => l.length
decreasing_by
  simp only [List.length_cons]
  exact Nat.lt_succ_of_le (List.length_filter_le _ _)

theorem argsortDesc_perm (scores : List ℚ) :
    (argsortDesc scores).Perm (List.range scores.length) :=
  List.perm_insertionSort _ _

theorem argsortDesc_sorted (scores : List ℚ) :
    List.Sorted (fun i j => scores.getD j 0 ≤ scores.getD i 0) (argsortDesc scores) := by
  haveI : IsTotal ℕ (fun i j => scores.getD j 0 ≤ scores.getD i 0) :=
    ⟨fun a b => le_total (scores.getD b 0) (scores.getD a 0)⟩
  haveI : IsTrans ℕ (fun i j => scores.getD j 0 ≤ scores.getD i 0) :=
    ⟨fun _ _ _ hab hbc => le_trans hbc hab⟩
  exact List.sorted_insertionSort _ _

theorem argsortDesc_strict (scores : List ℚ)
    (hinj : ∀ i, i < scores.length → ∀ j, j < scores.length →
       scores.getD i 0 = scores.getD j 0 → i = j) :
    ∀ a b, a < (argsortDesc scores).length → b < (argsortDesc scores).length →
      a < b →
      scores.getD ((argsortDesc scores).getD b 0) 0
        < scores.getD ((argsortDesc scores).getD a 0) 0 := by
  intro a b ha hb hab
  have hperm := argsortDesc_perm scores
  have hnd : (argsortDesc scores).Nodup :=
    (hperm.nodup_iff).mpr (List.nodup_range _)
  have hsorted := argsortDesc_sorted scores
  have hpair := (List.pairwise_iff_get.mp hsorted) ⟨a, ha⟩ ⟨b, hb⟩ hab
  have hga : (argsortDesc scores).getD a 0 = (argsortDesc scores).get ⟨a, ha⟩ := by
    rw [List.getD_eq_getElem _ _ ha, List.get_eq_getElem]
  have hgb : (argsortDesc scores).getD b 0 = (argsortDesc scores).get ⟨b, hb⟩ := by
    rw [List.getD_eq_getElem _ _ hb, List.get_eq_getElem]
  have hlta : (argsortDesc scores).getD a 0 < scores.length :=
    List.mem_range.mp (hperm.mem_iff.mp (getD_mem_of_lt _ 0 ha))
  have hltb : (argsortDesc scores).getD b 0 < scores.length :=
    List.mem_range.mp (hperm.mem_iff.mp (getD_mem_of_lt _ 0 hb))
  have hne : (argsortDesc scores).getD b 0 ≠ (argsortDesc scores).getD a 0 := by
    rw [hga, hgb]
    intro he
    have hfin := (hnd.get_inj_iff).mp he
    have : b = a := congrArg Fin.val hfin
    omega
  refine lt_of_le_of_ne ?_ ?_
  · rw [hga, hgb]
    exact hpair
  · intro he
    exact hne (hinj _ hltb _ hlta he)

/-- C4: `evaluation_dist` equals the negated `mapk` at 25 of the
deduplicated ranked records against the singleton label lists;
deduplication keeps, in order, exactly the first record of every
identifier; and with pairwise-distinct logits the per-record ranking lists
the option indices in strictly descending score order. -/
theorem evaluation_dist_spec :
    (∀ rows : List PredRow,
       evaluation_dist rows
         = -(mapk ((dedupFirst (rankRows rows)).map (fun r => [r.2.2]))
               ((dedupFirst (rankRows rows)).map (fun r => r.2.1)) 25))
    ∧ (∀ l : List (ℕ × List ℕ × ℕ),
         (dedupFirst l).Sublist l
         ∧ ((dedupFirst l).map (fun r => r.1)).Nodup
         ∧ ∀ key, (dedupFirst l).filter (fun r => r.1 == key)
             = (l.filter (fun r => r.1 == key)).take 1)
    ∧ (∀ scores : List ℚ,
         (argsortDesc scores).Perm (List.range scores.length)
         ∧ ((∀ i, i < scores.length → ∀ j, j < scores.length →
               scores.getD i 0 = scores.getD j 0 → i = j) →
            ∀ a b, a < (argsortDesc scores).length →
              b < (argsortDesc scores).length → a < b →
              scores.getD ((argsortDesc scores).getD b 0) 0
                < scores.getD ((argsortDesc scores).getD a 0) 0)) := by
  refine ⟨fun rows => rfl, ?_, ?_⟩
  · intro l
    exact ⟨dedupFirst_sublist l, dedupFirst_keys_nodup l,
      fun key => dedupFirst_filter_key l key⟩
  · intro scores
    exact ⟨argsortDesc_perm scores, argsortDesc_strict scores⟩

/-- C4 witness: the statement at a concrete record, a concrete duplicated
identifier list and concrete pairwise-distinct scores. -/
theorem evaluation_dist_spec_check :
    evaluation_dist [⟨5, [1, 3, 2], 1⟩]
        = -(mapk ((dedupFirst (rankRows [⟨5, [1, 3, 2], 1⟩])).map (fun r => [r.2.2]))
              ((dedupFirst (rankRows [⟨5, [1, 3, 2], 1⟩])).map (fun r => r.2.1)) 25)
    ∧ (dedupFirst [(1, [0], 2), (1, [1], 3)]).filter (fun r => r.1 == 1)
        = (([((1 : ℕ), ([0] : List ℕ), (2 : ℕ)), (1, [1], 3)]).filter
            (fun r => r.1 == 1)).take 1
    ∧ ([1, 3, 2] : List ℚ).getD ((argsortDesc [1, 3, 2]).getD 1 0) 0
        < ([1, 3, 2] : List ℚ).getD ((argsortDesc [1, 3, 2]).getD 0 0) 0 := by
  refine ⟨evaluation_dist_spec.1 [⟨5, [1, 3, 2], 1⟩],
    (evaluation_dist_spec.2.1 [(1, [0], 2), (1, [1], 3)]).2.2 1, ?_⟩
  exact (evaluation_dist_spec.2.2 [1, 3, 2]).2 (by decide) 0 1
    (by decide) (by decide) (by decide)

/-! Helper facts about the argmax-based sequence index. -/

theorem argmaxGo_const_le_one : ∀ (rest : List ℕ) (i best : ℕ),
    (∀ v ∈ rest, v ≤ 1) → argmaxGo rest i best 1 = best := by
  intro rest
  induction rest with
  | nil => intro i best _; rfl
  | cons v r ih =>
    intro i best h
    have hv : v ≤ 1 := h v (List.mem_cons_self v r)
    have hnlt : ¬ (1 < v) := by omega
    simp only [argmaxGo, if_neg hnlt]
    exact ih (i + 1) best (fun w hw => h w (List.mem_cons_of_mem v hw))

theorem argmaxGo_zeros : ∀ (rest : List ℕ) (i best : ℕ),
    (∀ v ∈ rest, v = 0) → argmaxGo rest i best 0 = best := by
  intro rest
  induction rest with
  | nil => intro i best _; rfl
  | cons v r ih =>
    intro i best h
    have hv : v = 0 := h v (List.mem_cons_self v r)
    have hnlt : ¬ (0 < v) := by omega
    simp only [argmaxGo, if_neg hnlt]
    exact ih (i + 1) best (fun w hw => h w (List.mem_cons_of_mem v hw))

theorem argmaxGo_walk : ∀ (zeros tail : List ℕ) (i best : ℕ),
    (∀ v ∈ zeros, v = 0) → (∀ v ∈ tail, v ≤ 1) →
    argmaxGo (zeros ++ 1 :: tail) i best 0 = i + zeros.length := by
  intro zeros
  induction zeros with
  | nil =>
    intro tail i best _ htail
    simp only [List.nil_append, argmaxGo, if_pos (by omega : (0 : ℕ) < 1)]
    rw [argmaxGo_const_le_one tail (i + 1) i htail]
    simp
  | cons z zs ih =>
    intro tail i best hz htail
    have hz0 : z = 0 := hz z (List.mem_cons_self z zs)
    subst hz0
    simp only [List.cons_append, argmaxGo, if_neg (by omega : ¬ ((0 : ℕ) < 0))]
    have hres := ih tail (i + 1) best (fun w hw => hz w (List.mem_cons_of_mem _ hw)) htail
    have he : (i + 1) + zs.length = i + (0 :: zs).length := by
      simp only [List.length_cons]
      omega
    rw [← he]
    exact hres

theorem padIndicator_le_one (padId : ℕ) (row : List ℕ) :
    ∀ v ∈ padIndicator padId row, v ≤ 1 := by
  intro v hv
  simp only [padIndicator, List.mem_map] at hv
  obtain ⟨t, -, rfl⟩ := hv
  split <;> omega

theorem padIndicator_zeros (padId : ℕ) (u : List ℕ) (h : padId ∉ u) :
    ∀ v ∈ padIndicator padId u, v = 0 := by
  intro v hv
  simp only [padIndicator, List.mem_map] at hv
  obtain ⟨t, ht, rfl⟩ := hv
  have hne : ¬ t = padId := by
    intro he
    apply h
    rw [← he]
    exact ht
  simp [hne]

theorem argmaxFirst_indicator_decomp (padId : ℕ) (u v : List ℕ) (hu : padId ∉ u) :
    argmaxFirst (padIndicator padId (u ++ padId :: v)) = u.length := by
  have hsplit : padIndicator padId (u ++ padId :: v)
      = padIndicator padId u ++ 1 :: padIndicator padId v := by
    simp [padIndicator]
  rw [hsplit]
  cases u with
  | nil =>
    simp only [padIndicator, List.map_nil, List.nil_append, argmaxFirst, List.length_nil]
    exact argmaxGo_const_le_one _ 1 0 (padIndicator_le_one padId v)
  | cons w u2 =>
    have hw : ¬ w = padId := by
      intro he
      apply hu
      rw [← he]
      exact List.mem_cons_self w u2
    have hu2 : padId ∉ u2 := fun hm => hu (List.mem_cons_of_mem w hm)
    simp only [padIndicator, List.map_cons, if_neg hw, List.cons_append, argmaxFirst]
    have := argmaxGo_walk (u2.map (fun t => if t = padId then 1 else 0))
      (v.map (fun t => if t = padId then 1 else 0)) 1 0
      (padIndicator_zeros padId u2 hu2) (padIndicator_le_one padId v)
    rw [this]
    simp only [List.length_map, List.length_cons]
    omega

theorem argmaxFirst_indicator_none (padId : ℕ) (row : List ℕ) (h : padId ∉ row) :
    argmaxFirst (padIndicator padId row) = 0 := by
  cases row with
  | nil => rfl
  | cons t r =>
    have ht : ¬ t = padId := by
      intro he
      apply h
      rw [← he]
      exact List.mem_cons_self t r
    have hr : padId ∉ r := fun hm => h (List.mem_cons_of_mem t hm)
    simp only [padIndicator, List.map_cons, if_neg ht, argmaxFirst]
    exact argmaxGo_zeros _ 1 0 (padIndicator_zeros padId r hr)

/-- C6: in both the training loop and the evaluator the per-sequence
logit-extraction index equals ((the index of the first token equal to the
padding id, or 0 when no such token occurs) minus 1) modulo the padded
sequence length, so when at least one real token precedes the first padding
token the index points at the last such real token. -/
theorem sequence_index_spec :
    (∀ (padId : ℕ) (row : List ℕ),
       trainSequenceIndex padId row = evalSequenceIndex padId row)
    ∧ (∀ (padId : ℕ) (u v : List ℕ), padId ∉ u →
         trainSequenceIndex padId (u ++ padId :: v)
           = ((u.length : ℤ) - 1) % (((u ++ padId :: v).length : ℕ) : ℤ))
    ∧ (∀ (padId : ℕ) (row : List ℕ), padId ∉ row →
         trainSequenceIndex padId row = ((0 : ℤ) - 1) % ((row.length : ℕ) : ℤ))
    ∧ (∀ (padId : ℕ) (u v : List ℕ), padId ∉ u → u ≠ [] →
         trainSequenceIndex padId (u ++ padId :: v) = (u.length : ℤ) - 1) := by
  refine ⟨fun _ _ => rfl, ?_, ?_, ?_⟩
  · intro padId u v hu
    simp only [trainSequenceIndex, argmaxFirst_indicator_decomp padId u v hu]
  · intro padId row h
    simp only [trainSequenceIndex, argmaxFirst_indicator_none padId row h]
    norm_num
  · intro padId u v hu hne
    simp only [trainSequenceIndex, argmaxFirst_indicator_decomp padId u v hu]
    have h1 : 1 ≤ u.length := List.length_pos.mpr hne
    have hb : (((u ++ padId :: v).length : ℕ) : ℤ)
        = (u.length : ℤ) + (v.length : ℤ) + 1 := by
      push_cast [List.length_append, List.length_cons]
      ring
    rw [Int.emod_eq_of_lt (by omega) (by rw [hb]; omega)]

/-- C6 witness: the index formula at a concrete padded row and a concrete
pad-free row. -/
theorem sequence_index_spec_check :
    trainSequenceIndex 9 ([5, 6] ++ 9 :: [9])
        = ((([5, 6] : List ℕ).length : ℤ) - 1)
            % (((([5, 6] ++ 9 :: [9] : List ℕ)).length : ℕ) : ℤ)
    ∧ trainSequenceIndex 9 [5, 6]
        = ((0 : ℤ) - 1) % (((([5, 6] : List ℕ)).length : ℕ) : ℤ) :=
  ⟨sequence_index_spec.2.1 9 [5, 6] [9] (by decide),
   sequence_index_spec.2.2.1 9 [5, 6] (by decide)⟩

/-! Helper facts about batch collation. -/

theorem le_foldl_max : ∀ (l : List ℕ) (a : ℕ), a ≤ l.foldl Nat.max a := by
  intro l
  induction l with
  | nil => intro a; exact le_refl a
  | cons x r ih =>
    intro a
    exact le_trans (Nat.le_max_left a x) (ih (Nat.max a x))

theorem mem_le_foldl_max : ∀ (l : List ℕ) (a x : ℕ), x ∈ l → x ≤ l.foldl Nat.max a := by
  intro l
  induction l with
  | nil => intro a x h; exact absurd h (List.not_mem_nil x)
  | cons y r ih =>
    intro a x h
    rcases List.mem_cons.mp h with he | hm
    · subst he
      exact le_trans (Nat.le_max_right a x) (le_foldl_max r (Nat.max a x))
    · exact ih (Nat.max a y) x hm

theorem length_le_maxLenOf (ls : List (List ℕ)) (row : List ℕ) (h : row ∈ ls) :
    row.length ≤ maxLenOf ls :=
  mem_le_foldl_max (ls.map List.length) 0 row.length (List.mem_map_of_mem _ h)

theorem padRow_length (maxLen val : ℕ) (row : List ℕ) (h : row.length ≤ maxLen) :
    (padRow maxLen val row).length = maxLen := by
  simp only [padRow, List.length_append, List.length_drop, List.length_replicate]
  omega

theorem padRow_take (maxLen val : ℕ) (row : List ℕ) :
    (padRow maxLen val row).take row.length = row := by
  rw [padRow, List.take_left]

theorem padRow_drop_eq (maxLen val : ℕ) (row : List ℕ) :
    ∀ t ∈ (padRow maxLen val row).drop row.length, t = val := by
  intro t ht
  rw [padRow, List.drop_left, List.drop_replicate] at ht
  exact List.eq_of_mem_replicate ht

theorem zip_map_self {α β : Type} (f : α → β) :
    ∀ l : List α, (l.map f).zip l = l.map (fun a => (f a, a)) := by
  intro l
  induction l with
  | nil => rfl
  | cons a r ih => simp [ih]

/-- C7: for a non-empty batch, `collate_fn` produces one padded row per
instance; every row has the batch maximal token length; positionally, every
padded row starts with the token sequence of its instance and continues with
copies of the eos id; labels and data ids are stacked unchanged in instance
order. -/
theorem collate_fn_spec :
    ∀ (eosId : ℕ) (instances : List TokInstance), instances ≠ [] →
      ((collate_fn eosId instances).1.length = instances.length)
      ∧ (∀ row ∈ (collate_fn eosId instances).1,
           row.length = maxLenOf (instances.map (fun inst => inst.inputIds)))
      ∧ (∀ pr ∈ (collate_fn eosId instances).1.zip
            (instances.map (fun inst => inst.inputIds)),
           pr.1.take pr.2.length = pr.2
           ∧ ∀ t ∈ pr.1.drop pr.2.length, t = eosId)
      ∧ (collate_fn eosId instances).2.1 = instances.map (fun inst => inst.label)
      ∧ (collate_fn eosId instances).2.2 = instances.map (fun inst => inst.dataId) := by
  intro eosId instances _
  refine ⟨?_, ?_, ?_, rfl, rfl⟩
  · simp [collate_fn, padding]
  · intro row hrow
    simp only [collate_fn, padding] at hrow
    obtain ⟨r0, hr0, rfl⟩ := List.mem_map.mp hrow
    exact padRow_length _ _ r0 (length_le_maxLenOf _ r0 hr0)
  · intro pr hpr
    have hz : (collate_fn eosId instances).1.zip
          (instances.map (fun inst => inst.inputIds))
        = (instances.map (fun inst => inst.inputIds)).map
            (fun a => (padRow (maxLenOf (instances.map (fun inst => inst.inputIds)))
              eosId a, a)) := by
      simp only [collate_fn, padding]
      exact zip_map_self _ _
    rw [hz] at hpr
    obtain ⟨a, _, rfl⟩ := List.mem_map.mp hpr
    exact ⟨padRow_take _ _ _, padRow_drop_eq _ _ _⟩

/-- C7 witness: the statement at a concrete two-instance batch. -/
theorem collate_fn_spec_check :
    ((collate_fn 2 [⟨[3, 4], 0, 7⟩, ⟨[5], 1, 8⟩]).1.length
        = ([⟨[3, 4], 0, 7⟩, ⟨[5], 1, 8⟩] : List TokInstance).length)
    ∧ (∀ row ∈ (collate_fn 2 [⟨[3, 4], 0, 7⟩, ⟨[5], 1, 8⟩]).1,
         row.length = maxLenOf (([⟨[3, 4], 0, 7⟩, ⟨[5], 1, 8⟩] : List TokInstance).map
           (fun inst => inst.inputIds)))
    ∧ (∀ pr ∈ (collate_fn 2 [⟨[3, 4], 0, 7⟩, ⟨[5], 1, 8⟩]).1.zip
          (([⟨[3, 4], 0, 7⟩, ⟨[5], 1, 8⟩] : List TokInstance).map
            (fun inst => inst.inputIds)),
         pr.1.take pr.2.length = pr.2
         ∧ ∀ t ∈ pr.1.drop pr.2.length, t = 2)
    ∧ (collate_fn 2 [⟨[3, 4], 0, 7⟩, ⟨[5], 1, 8⟩]).2.1
        = ([⟨[3, 4], 0, 7⟩, ⟨[5], 1, 8⟩] : List TokInstance).map (fun inst => inst.label)
    ∧ (collate_fn 2 [⟨[3, 4], 0, 7⟩, ⟨[5], 1, 8⟩]).2.2
        = ([⟨[3, 4], 0, 7⟩, ⟨[5], 1, 8⟩] : List TokInstance).map (fun inst => inst.dataId) :=
  collate_fn_spec 2 [⟨[3, 4], 0, 7⟩, ⟨[5], 1, 8⟩] (by decide)

/-- C9: the dictionary written by `save_model` contains exactly the
state-dict entries whose name contains `"lora"` or `"score"` (so only
adapter-related parameters, no full-model weights), and the tokenizer
directory coincides with the weights directory `output_dir/sub_fold`; with
no subdirectory name nothing is written. -/
theorem save_model_spec :
    ∀ (outputDir s : String) (stateDict : List (String × ℕ)) (res : SaveResult),
      save_model outputDir (some s) stateDict = some res →
      (∀ kv, kv ∈ res.savedDict
         ↔ kv ∈ stateDict
           ∧ (containsSub "lora" kv.1 || containsSub "score" kv.1) = true)
      ∧ res.tokenizerDir = res.dir
      ∧ res.dir = outputDir ++ "/" ++ s
      ∧ res.weightsFile = res.dir ++ "/" ++ "adapter.bin"
      ∧ save_model outputDir none stateDict = none := by
  intro outputDir s stateDict res h
  simp only [save_model] at h
  have hres := (Option.some.injEq _ _).mp h
  subst hres
  refine ⟨?_, rfl, rfl, rfl, rfl⟩
  intro kv
  simp [save_filter, List.mem_filter]

/-- C9 witness: the statement at a concrete state dict with one adapter
entry and one full-model entry. -/
theorem save_model_spec_check :
    (∀ kv, kv ∈ (SaveResult.mk ("out" ++ "/" ++ "best") ("out" ++ "/" ++ "best")
          ("out" ++ "/" ++ "best" ++ "/" ++ "adapter.bin")
          (save_filter [("base.lora_A.weight", 1), ("model.embed.weight", 2)])).savedDict
       ↔ kv ∈ [("base.lora_A.weight", 1), ("model.embed.weight", 2)]
         ∧ (containsSub "lora" kv.1 || containsSub "score" kv.1) = true)
    ∧ (SaveResult.mk ("out" ++ "/" ++ "best") ("out" ++ "/" ++ "best")
          ("out" ++ "/" ++ "best" ++ "/" ++ "adapter.bin")
          (save_filter [("base.lora_A.weight", 1), ("model.embed.weight", 2)])).tokenizerDir
        = (SaveResult.mk ("out" ++ "/" ++ "best") ("out" ++ "/" ++ "best")
          ("out" ++ "/" ++ "best" ++ "/" ++ "adapter.bin")
          (save_filter [("base.lora_A.weight", 1), ("model.embed.weight", 2)])).dir
    ∧ (SaveResult.mk ("out" ++ "/" ++ "best") ("out" ++ "/" ++ "best")
          ("out" ++ "/" ++ "best" ++ "/" ++ "adapter.bin")
          (save_filter [("base.lora_A.weight", 1), ("model.embed.weight", 2)])).dir
        = "out" ++ "/" ++ "best"
    ∧ (SaveResult.mk ("out" ++ "/" ++ "best") ("out" ++ "/" ++ "best")
          ("out" ++ "/" ++ "best" ++ "/" ++ "adapter.bin")
          (save_filter [("base.lora_A.weight", 1), ("model.embed.weight", 2)])).weightsFile
        = (SaveResult.mk ("out" ++ "/" ++ "best") ("out" ++ "/" ++ "best")
          ("out" ++ "/" ++ "best" ++ "/" ++ "adapter.bin")
          (save_filter [("base.lora_A.weight", 1), ("model.embed.weight", 2)])).dir
            ++ "/" ++ "adapter.bin"
    ∧ save_model "out" none [("base.lora_A.weight", 1), ("model.embed.weight", 2)] = none :=
  save_model_spec "out" "best" [("base.lora_A.weight", 1), ("model.embed.weight", 2)]
    (SaveResult.mk ("out" ++ "/" ++ "best") ("out" ++ "/" ++ "best")
      ("out" ++ "/" ++ "best" ++ "/" ++ "adapter.bin")
      (save_filter [("base.lora_A.weight", 1), ("model.embed.weight", 2)])) rfl

end RankChoice
